import Mathlib

/-!
# Verification of the mdsycx event pipeline

Shallow embedding of the mdsycx repository:

* `src/mdsycx/src/parser.rs` — front-matter splitting (`parse`), the
  Markdown-event translation loop (`parse_md`, `start_tag`, `end_tag`),
  footnote numbering, and the raw-HTML re-tokenization (`parse_html`);
* `src/mdsycx/src/components.rs` — the component registry
  (`ComponentMap`) and the event-stream-to-view stack machine
  (`events_to_view`);
* `src/mdsycx-macro/src/from_md.rs` — the `set_prop` body generated by the
  `FromMd` derive, checked against the `FromMd` trait contract of
  `src/mdsycx/src/lib.rs`.

External collaborators (pulldown_cmark, quick_xml, serde_yaml, the
Sycamore rendering layer) enter the model as inputs: the Markdown
tokenizer's output is a `List MdEvent`, the HTML reader's output a
`List XmlTok`, the YAML decoder a function parameter, and a registered
renderer invocation is recorded symbolically as a `View.component` node
holding exactly the data the source passes to the renderer (the attribute
list and the captured child-event buffer of the lazy `Children` closure).
Panics and `expect` failures are modelled as `none`.
-/

namespace Mdsycx

/-- `Event` (parser.rs 36-46): serializable tree instructions. -/
inductive Event where
  | Start (name : String)
  | End
  | Attr (name : String) (value : String)
  | Text (value : String)
  deriving DecidableEq

/-- Association-list model of `HashMap` lookup (`get`). -/
def lookupA {α : Type} : List (String × α) → String → Option α
  | [], _ => none
  | (k, v) :: rest, key => if k = key then some v else lookupA rest key

/-- Association-list model of `HashMap::insert`: replaces the value bound to
an existing key, otherwise adds a new binding. -/
def insertA {α : Type} : List (String × α) → String → α → List (String × α)
  | [], key, v => [(key, v)]
  | (k, w) :: rest, key, v =>
    if k = key then (key, v) :: rest else (k, w) :: insertA rest key v

/-- `pulldown_cmark::HeadingLevel`. -/
inductive HeadingLevel where
  | h1 | h2 | h3 | h4 | h5 | h6
  deriving DecidableEq

/-- `Display` for `HeadingLevel` ("h1" .. "h6"); this is the `lv.to_string()`
used by `start_tag` for `Tag::Heading`. -/
def headingTag : HeadingLevel → String
  | .h1 => "h1"
  | .h2 => "h2"
  | .h3 => "h3"
  | .h4 => "h4"
  | .h5 => "h5"
  | .h6 => "h6"

/-- `pulldown_cmark::CodeBlockKind`. -/
inductive CodeBlockKind where
  | Indented
  | Fenced (lang : String)
  deriving DecidableEq

/-- `pulldown_cmark::Tag`. Payload fields the source ignores (link/image
`LinkType`, table alignments) are dropped. `Tag::List` is `MdList` (`List`
is taken in Lean). -/
inductive MdTag where
  | Paragraph
  | Heading (level : HeadingLevel) (id : Option String) (classes : List String)
  | BlockQuote
  | CodeBlock (kind : CodeBlockKind)
  | MdList (start : Option Nat)
  | Item
  | FootnoteDefinition (label : String)
  | Table
  | TableHead
  | TableRow
  | TableCell
  | Emphasis
  | Strong
  | Strikethrough
  | Link (dest : String) (title : String)
  | Image (dest : String) (title : String)
  deriving DecidableEq

/-- `pulldown_cmark::Event`, the Markdown tokenizer's instruction stream. -/
inductive MdEvent where
  | Start (tag : MdTag)
  | End (tag : MdTag)
  | Text (s : String)
  | Code (s : String)
  | Html (s : String)
  | FootnoteReference (label : String)
  | SoftBreak
  | HardBreak
  | Rule
  | TaskListMarker (checked : Bool)
  deriving DecidableEq

/-- The footnote-numbering step appearing verbatim at both sites — for
`MdEvent::FootnoteReference` (parser.rs 104-114) and for
`Tag::FootnoteDefinition` (parser.rs 178-194):
`let len = numbers.len() + 1; numbers.entry(name).or_insert(len)`.
Returns the (possibly extended) map and the ordinal for `name`. -/
def footnoteOrdinal (numbers : List (String × Nat)) (name : String) :
    List (String × Nat) × Nat :=
  let len := numbers.length + 1
  match lookupA numbers name with
  | some n => (numbers, n)
  | none => ((name, len) :: numbers, len)

/-- `start_tag` (parser.rs 139-222). Returns the emitted events and the
updated footnote map (only `FootnoteDefinition` touches it). -/
def start_tag (tag : MdTag) (numbers : List (String × Nat)) :
    List Event × List (String × Nat) :=
  match tag with
  | .Paragraph => ([.Start "p"], numbers)
  | .Heading lv id classes =>
    let idEvents := match id with
      | some i => [Event.Attr "id" i]
      | none => []
    let cls := String.intercalate " " classes
    let clsEvents := if cls.isEmpty then [] else [Event.Attr "class" cls]
    ([Event.Start (headingTag lv)] ++ idEvents ++ clsEvents, numbers)
  | .BlockQuote => ([.Start "blockquote"], numbers)
  | .CodeBlock kind =>
    let langEvents := match kind with
      | CodeBlockKind.Fenced lang =>
        if lang.isEmpty then [] else [Event.Attr "class" ("language-" ++ lang)]
      | CodeBlockKind.Indented => []
    ([Event.Start "pre", Event.Start "code"] ++ langEvents, numbers)
  | .MdList (some 1) => ([.Start "ol"], numbers)
  | .MdList (some n) => ([.Start "ol", .Attr "start" (toString n)], numbers)
  | .MdList none => ([.Start "ul"], numbers)
  | .Item => ([.Start "li"], numbers)
  | .FootnoteDefinition name =>
    let res := footnoteOrdinal numbers name
    ([Event.Start "div", Event.Attr "class" "footnote-definition",
      Event.Attr "id" name, Event.Start "sup",
      Event.Attr "class" "footnote-definition-label",
      Event.Text (toString res.2), Event.End], res.1)
  | .Table => ([.Start "table"], numbers)
  | .TableHead => ([.Start "thead", .Start "tr"], numbers)
  | .TableRow => ([.Start "tr"], numbers)
  | .TableCell => ([.Start "td"], numbers)
  | .Emphasis => ([.Start "em"], numbers)
  | .Strong => ([.Start "strong"], numbers)
  | .Strikethrough => ([.Start "del"], numbers)
  | .Link dest title =>
    ([Event.Start "a", Event.Attr "href" dest] ++
      (if title.isEmpty then [] else [Event.Attr "title" title]), numbers)
  | .Image dest title =>
    ([Event.Start "img", Event.Attr "src" dest] ++
      (if title.isEmpty then [] else [Event.Attr "title" title]) ++
      [Event.End], numbers)

/-- `end_tag` (parser.rs 224-248): `CodeBlock` and `TableHead` close two
tags, `Image` is `unreachable!()` in the source (its `End` is already
emitted by `start_tag`; modelled as no events), everything else closes
one tag. -/
def end_tag (tag : MdTag) : List Event :=
  match tag with
  | .CodeBlock _ => [.End, .End]
  | .TableHead => [.End, .End]
  | .Image _ _ => []
  | _ => [.End]

/-- Tokens of the `quick_xml` reader as consumed by `parse_html`
(parser.rs 250-296). `Err` is a reader error (the source logs a warning and
continues); `Other` covers the event kinds the source ignores (`_ => {}`);
`Eof` is the end of the list. -/
inductive XmlTok where
  | Start (name : String) (attrs : List (String × String))
  | End (name : String)
  | Empty (name : String) (attrs : List (String × String))
  | Text (s : String)
  | Err (msg : String)
  | Other
  deriving DecidableEq

/-- `parse_html` (parser.rs 250-296) over the reader's token stream: start
tags become `Start` plus `Attr`s, end tags become `End` unconditionally,
self-closing tags become `Start`/`Attr*`/`End`, text becomes `Text`,
reader errors are skipped. There is no depth tracking and no synthesis of
missing `End` events. -/
def parse_html : List XmlTok → List Event
  | [] => []
  | .Start name attrs :: rest =>
    Event.Start name :: (attrs.map (fun a => Event.Attr a.1 a.2) ++ parse_html rest)
  | .End _ :: rest => Event.End :: parse_html rest
  | .Empty name attrs :: rest =>
    Event.Start name ::
      (attrs.map (fun a => Event.Attr a.1 a.2) ++ (Event.End :: parse_html rest))
  | .Text s :: rest => Event.Text s :: parse_html rest
  | .Err _ :: rest => parse_html rest
  | .Other :: rest => parse_html rest

/-- The `next_if(matches Html)` grouping loop (parser.rs 96-101): collect
the maximal run of consecutive `Html` events, returning the concatenated
blob and the remaining stream. -/
def collectHtml : List MdEvent → String × List MdEvent
  | .Html s :: rest =>
    let acc := collectHtml rest
    (s ++ acc.1, acc.2)
  | l => ("", l)

/-- `parse_md`'s main loop (parser.rs 76-137). `tokenize` abstracts the
external `quick_xml` reader applied to a raw-HTML blob. The loop is
fuel-indexed so the jump over a collected `Html` run terminates
structurally; fuel at least the stream length always suffices and
`parse_md` passes exactly that. -/
def parse_md_go (tokenize : String → List XmlTok) :
    Nat → List (String × Nat) → List MdEvent → List Event
  | _, _, [] => []
  | 0, _, _ :: _ => []
  | fuel + 1, numbers, e :: rest =>
    match e with
    | .Start tag =>
      let res := start_tag tag numbers
      res.1 ++ parse_md_go tokenize fuel res.2 rest
    | .End tag => end_tag tag ++ parse_md_go tokenize fuel numbers rest
    | .Text s => Event.Text s :: parse_md_go tokenize fuel numbers rest
    | .Code s =>
      [Event.Start "code", Event.Text s, Event.End] ++
        parse_md_go tokenize fuel numbers rest
    | .Html s =>
      let acc := collectHtml rest
      parse_html (tokenize (s ++ acc.1)) ++ parse_md_go tokenize fuel numbers acc.2
    | .FootnoteReference name =>
      let res := footnoteOrdinal numbers name
      [Event.Start "sup", Event.Attr "class" "footnote-reference",
       Event.Start "a", Event.Attr "href" (toString res.2),
       Event.Text (toString res.2), Event.End, Event.End] ++
        parse_md_go tokenize fuel res.1 rest
    | .SoftBreak => Event.Text " " :: parse_md_go tokenize fuel numbers rest
    | .HardBreak =>
      [Event.Start "br", Event.End] ++ parse_md_go tokenize fuel numbers rest
    | .Rule =>
      [Event.Start "hr", Event.End] ++ parse_md_go tokenize fuel numbers rest
    | .TaskListMarker checked =>
      [Event.Start "input", Event.Attr "disabled" "", Event.Attr "type" "checkbox"] ++
        (if checked then [Event.Attr "checked" ""] else []) ++
        ([Event.End] ++ parse_md_go tokenize fuel numbers rest)

/-- `parse_md` (parser.rs 76-137): translate the Markdown tokenizer's
stream, starting from an empty footnote map. -/
def parse_md (tokenize : String → List XmlTok) (mdEvents : List MdEvent) :
    List Event :=
  parse_md_go tokenize mdEvents.length [] mdEvents

/-- Rust `str::trim` (whitespace stripped from both ends), implemented at
the character-list level so that it evaluates. -/
def trimString (s : String) : String :=
  String.mk
    (((s.data.dropWhile Char.isWhitespace).reverse.dropWhile Char.isWhitespace).reverse)

/-- List-level model of Rust `str::split_once`: split at the first
occurrence of `pat`, excluding the pattern itself. -/
def splitOnceL (pat : List Char) : List Char → Option (List Char × List Char)
  | [] => if pat.isPrefixOf ([] : List Char) then some ([], []) else none
  | c :: rest =>
    if pat.isPrefixOf (c :: rest) then some ([], (c :: rest).drop pat.length)
    else (splitOnceL pat rest).map (fun p => (c :: p.1, p.2))

/-- Rust `str::split_once` on strings. -/
def splitOnce (s pat : String) : Option (String × String) :=
  (splitOnceL pat.data s.data).map (fun p => (String.mk p.1, String.mk p.2))

/-- Rust `str::starts_with`, at the character-list level. -/
def beginsWith (s pat : String) : Bool :=
  pat.data.isPrefixOf s.data

/-- `ParseError` (parser.rs 13-19); the yaml error payload is kept as its
message. -/
inductive ParseError where
  | MissingFrontMatterEndDelimiter
  | DeserializeError (msg : String)
  deriving DecidableEq

/-- `parse` (parser.rs 50-73). External collaborators are parameters:
`yaml` models `serde_yaml::from_str`, `parseBody` models `parse_md`
applied to a body slice. Result pairs the optional front matter with the
body events (`ParseRes`). Note Rust's `if let Some(("", rest)) =
input.split_once("---")`: the else branch covers both "no `---` at all"
and "`---` not at the very start". -/
def parse {T : Type} (yaml : String → Except String T)
    (parseBody : String → List Event) (input : String) :
    Except ParseError (Option T × List Event) :=
  let inp := trimString input
  match splitOnce inp "---" with
  | some (pre, rest) =>
    if pre = "" then
      match splitOnce rest "---" with
      | some (frontMatterStr, bodyStr) =>
        match yaml frontMatterStr with
        | .ok t => .ok (some t, parseBody bodyStr)
        | .error e => .error (.DeserializeError e)
      | none => .error .MissingFrontMatterEndDelimiter
    else .ok (none, parseBody inp)
  | none => .ok (none, parseBody inp)

/-- Sycamore views as built by `events_to_view` (components.rs 77-176).
A registered component's renderer invocation is kept symbolic: the
`component` node records the tag name, the attribute list handed to the
renderer, and the child-event buffer captured by the lazy
`Children::new(move || events_to_view(children_events, components))`
closure (the registry inside the closure is the cloned ambient one). -/
inductive View where
  | text (s : String)
  | element (tag : String) (attrs : List (String × String)) (children : List View)
  | component (name : String) (attrs : List (String × String))
      (childrenEvents : List Event)
  | fragment (views : List View)

/-- Result of the component lookahead scan (components.rs 95-121). -/
structure ScanRes where
  component_attributes : List (String × String)
  children_events : List Event
  rest : List Event
  closed : Bool
  deriving DecidableEq

/-- The eager lookahead loop run when a `Start` names a registered
component (components.rs 95-121): scan forward until the nesting depth
returns to 0. Every `Attr` event is pushed into `component_attributes`
(the source pushes before any depth check, at any depth); all events
except depth-1 `Attr`s and the final `End` are pushed into
`children_events`. `closed = false` is the branch where the stream ran
out first and the source logs "tags are not balanced" and breaks. -/
def scanComponent (depth : Nat) : List Event → ScanRes
  | [] => ⟨[], [], [], false⟩
  | ev :: rest =>
    let depth2 := match ev with
      | .Start _ => depth + 1
      | .End => depth - 1
      | _ => depth
    if depth2 = 0 then ⟨[], [], rest, true⟩
    else
      let r := scanComponent depth2 rest
      match ev with
      | .Attr n v =>
        ⟨(n, v) :: r.component_attributes,
         if depth2 = 1 then r.children_events else Event.Attr n v :: r.children_events,
         r.rest, r.closed⟩
      | _ => ⟨r.component_attributes, ev :: r.children_events, r.rest, r.closed⟩

/-- `events_to_view`'s stack machine (components.rs 77-176). `frag`,
`attrs`, `elems` model `fragments_stack`, `attr_stack`, `element_stack`
(head = innermost; the source initializes the first two with one empty
entry). Every `expect`/`panic!` branch is `none`. The loop is
fuel-indexed (the jump over a component's scanned sub-stream is not
structural); fuel at least the stream length always suffices and
`events_to_view` passes exactly that. -/
def events_to_view_go (comps : List String) (fuel : Nat)
    (frag : List (List View)) (attrs : List (List (String × String)))
    (elems : List String) (events : List Event) : Option View :=
  match events with
  | [] =>
    match frag with
    | [f] => some (.fragment f)
    | _ => none
  | ev :: rest =>
    match fuel with
    | 0 => none
    | fuel + 1 =>
      match ev with
      | .Start tag =>
        match comps.contains tag with
        | true =>
          let r := scanComponent 1 rest
          match frag with
          | top :: frag2 =>
            events_to_view_go comps fuel
              ((top ++ [View.component tag r.component_attributes r.children_events])
                :: frag2)
              attrs elems r.rest
          | [] => none
        | false =>
          events_to_view_go comps fuel ([] :: frag) ([] :: attrs) (tag :: elems) rest
      | .End =>
        match elems, frag, attrs with
        | tag :: elems2, children :: top :: frag2, cattrs :: attrs2 =>
          events_to_view_go comps fuel
            ((top ++ [View.element tag cattrs children]) :: frag2) attrs2 elems2 rest
        | _, _, _ => none
      | .Attr n v =>
        match attrs with
        | top :: attrs2 =>
          events_to_view_go comps fuel frag ((top ++ [(n, v)]) :: attrs2) elems rest
        | [] => none
      | .Text s =>
        match frag with
        | top :: frag2 =>
          events_to_view_go comps fuel ((top ++ [View.text s]) :: frag2) attrs elems rest
        | [] => none

/-- `events_to_view` (components.rs 77-176): run the stack machine from the
initial state `fragments_stack = vec![vec![]]`, `attr_stack = vec![vec![]]`,
`element_stack = vec![]`. The registry is modelled by the list of
registered names (`components.map.get` is a membership test here because
the renderer invocation itself is recorded symbolically in the view). -/
def events_to_view (comps : List String) (events : List Event) : Option View :=
  events_to_view_go comps events.length [[]] [[]] [] events

/-- `SetPropError` (mdsycx/src/lib.rs 29-41). -/
inductive SetPropError where
  | UnknownProp
  | Parse
  deriving DecidableEq

/-- The `FromMd` trait (mdsycx/src/lib.rs 44-53) as a capability record.
Per the trait documentation, `set_prop` returns an error (leaving the
props unchanged) when the name is unknown or the value does not parse;
`children` is the captured child-event buffer standing for the `View`. -/
structure FromMdImpl (P : Type) where
  new_prop_default : P
  set_prop : P → String → String → Except SetPropError P
  set_children : P → List Event → P

/-- `into_type_erased_component` (components.rs 18-36): fold the serialized
props over `set_prop`, skipping (with a logged warning naming the prop)
any attribute whose `set_prop` call returns an error, then set the
children and invoke the renderer. -/
def into_type_erased_component {P V : Type} (fm : FromMdImpl P) (f : P → V) :
    List (String × String) × List Event → V :=
  fun props =>
    let p := props.1.foldl
      (fun p nv =>
        match fm.set_prop p nv.1 nv.2 with
        | .ok p2 => p2
        | .error _ => p)
      fm.new_prop_default
    f (fm.set_children p props.2)

/-- `ComponentMap` (components.rs 38-60): a map from component names to
type-erased components, modelled as an association list with `HashMap`
insert semantics. -/
structure ComponentMapM (V : Type) where
  map : List (String × (List (String × String) × List Event → V))

/-- `ComponentMap::with` (components.rs 51-59): insert the type-erased
form of `f` under `name` (`with` is a Lean keyword, hence `withComp`). -/
def ComponentMapM.withComp {V P : Type} (self : ComponentMapM V) (name : String)
    (fm : FromMdImpl P) (f : P → V) : ComponentMapM V :=
  ⟨insertA self.map name (into_type_erased_component fm f)⟩

/-- Props struct of the website's `Counter` component
(website/src/main.rs): one `initial` prop parsed from a string plus the
`children` slot. Used to evaluate the `FromMd` derive output. -/
structure CounterProps where
  initial : Int
  children : List Event
  deriving DecidableEq

/-- Decimal digits of an integer literal, accumulator form (models the
standard-library `FromStr` for an integer prop type). -/
def digitsAux (acc : Nat) : List Char → Option Nat
  | [] => some acc
  | c :: cs =>
    if c.isDigit then digitsAux (acc * 10 + (c.toNat - 48)) cs else none

/-- Model of `i32::from_str` on the value string of a prop (sign followed
by at least one decimal digit). -/
def parseIntM (s : String) : Option Int :=
  match s.data with
  | [] => none
  | '-' :: ds =>
    match ds with
    | [] => none
    | _ => (digitsAux 0 ds).map (fun n => -(n : Int))
  | ds => (digitsAux 0 ds).map (fun n => (n : Int))

/-- The `set_prop` body generated by the `FromMd` derive macro
(mdsycx-macro/src/from_md.rs 94-104) for `CounterProps`:
`match name { "initial" => { let data = FromStr::from_str(value).unwrap();
... } _ => panic!("unknown prop") }`. Both panics (unknown name, value
parse failure) are `none`. -/
def counterSetPropDerived (p : CounterProps) (name value : String) :
    Option CounterProps :=
  if name = "initial" then
    (parseIntM value).map (fun n => { p with initial := n })
  else none

/-- The `Result`-returning `set_prop` that the `FromMd` trait of
mdsycx/src/lib.rs documents for `CounterProps`: unknown name yields
`UnknownProp`, an unparsable value yields `Parse`, and the props are left
unchanged on error. -/
def counterFromMd : FromMdImpl CounterProps where
  new_prop_default := ⟨0, []⟩
  set_prop := fun p name value =>
    if name = "initial" then
      match parseIntM value with
      | some n => .ok { p with initial := n }
      | none => .error .Parse
    else .error .UnknownProp
  set_children := fun p c => { p with children := c }

/-- A trivial `FromMd` capability on `Unit`, for concrete registry
instantiations. -/
def unitFromMd : FromMdImpl Unit :=
  ⟨(), fun p _ _ => .ok p, fun p _ => p⟩

/-- Depth scan of the `Start`/`End` bracket structure of an event list:
`run d l` is the final depth, or `none` when some `End` arrives at
depth 0 (a stray close). `run 0 l = some 0` says the `Start`/`End`
events of `l` form a well-formed bracket sequence. -/
def run (d : Nat) : List Event → Option Nat
  | [] => some d
  | .Start _ :: l => run (d + 1) l
  | .End :: l =>
    match d with
    | 0 => none
    | e + 1 => run e l
  | .Attr _ _ :: l => run d l
  | .Text _ :: l => run d l

/-- Structural characterization of event lists whose `Start`/`End`
events form a well-formed bracket sequence. -/
inductive Bal : List Event → Prop where
  | nil : Bal []
  | text (s : String) (l : List Event) : Bal l → Bal (.Text s :: l)
  | attr (n v : String) (l : List Event) : Bal l → Bal (.Attr n v :: l)
  | node (tag : String) (inner l : List Event) :
      Bal inner → Bal l → Bal (.Start tag :: inner ++ .End :: l)

/-- Split an event list at the first `End` that is not matched by an
earlier `Start` within the list, skipping `d` pending opens. -/
def firstClose : List Event → Nat → Option (List Event × List Event)
  | [], _ => none
  | .End :: l, 0 => some ([], l)
  | .End :: l, d + 1 => (firstClose l d).map (fun p => (Event.End :: p.1, p.2))
  | .Start t :: l, d => (firstClose l (d + 1)).map (fun p => (Event.Start t :: p.1, p.2))
  | .Attr n v :: l, d => (firstClose l d).map (fun p => (Event.Attr n v :: p.1, p.2))
  | .Text s :: l, d => (firstClose l d).map (fun p => (Event.Text s :: p.1, p.2))

/-- All attribute pairs occurring anywhere in an event list, in order. -/
def allAttrs : List Event → List (String × String)
  | [] => []
  | .Attr n v :: l => (n, v) :: allAttrs l
  | _ :: l => allAttrs l

/-- The child-event buffer contribution of an event list scanned from
depth `d` by `scanComponent`: everything except `Attr`s seen at depth 1. -/
def childAux (d : Nat) : List Event → List Event
  | [] => []
  | .Start t :: l => Event.Start t :: childAux (d + 1) l
  | .End :: l => Event.End :: childAux (d - 1) l
  | .Attr n v :: l =>
    if d = 1 then childAux d l else Event.Attr n v :: childAux d l
  | .Text s :: l => Event.Text s :: childAux d l

/-- Attribute pairs occurring at relative depth 0 of an event list (the
attributes a frame at that level accumulates). -/
def topAttrs (d : Nat) : List Event → List (String × String)
  | [] => []
  | .Start _ :: l => topAttrs (d + 1) l
  | .End :: l => topAttrs (d - 1) l
  | .Attr n v :: l => if d = 0 then (n, v) :: topAttrs d l else topAttrs d l
  | .Text _ :: l => topAttrs d l

/-- First-occurrence deduplication with an accumulator of already-seen
labels. -/
def firstDedupAux (seen : List String) : List String → List String
  | [] => []
  | x :: xs =>
    if x ∈ seen then firstDedupAux seen xs
    else x :: firstDedupAux (x :: seen) xs

/-- The distinct labels of a list, in order of first appearance. -/
def firstDedup (l : List String) : List String :=
  firstDedupAux [] l

/-- Index of the first occurrence of `x` (length of the list when
absent). -/
def idxOfS (x : String) : List String → Nat
  | [] => 0
  | y :: ys => if y = x then 0 else idxOfS x ys + 1

/-- Run the shared footnote-numbering step over a document-ordered list of
footnote occurrences. The `Bool` marks the kind (`true` = definition from
`start_tag`, `false` = reference from the main loop); both kinds apply
`footnoteOrdinal` to the same map, exactly as the two program sites do. -/
def runNumbers : List (String × Nat) → List (Bool × String) → List Nat
  | _, [] => []
  | numbers, occ :: rest =>
    let res := footnoteOrdinal numbers occ.2
    res.2 :: runNumbers res.1 rest

lemma run_append : ∀ (a b : List Event) (d : Nat),
    run d (a ++ b) = (run d a).bind (fun e => run e b) := by
  intro a
  induction a with
  | nil => intro b d; simp [run]
  | cons ev a ih =>
    intro b d
    cases ev with
    | Start t => simpa [run] using ih b (d + 1)
    | End =>
      cases d with
      | zero => simp [run]
      | succ e => simpa [run] using ih b e
    | Attr n v => simpa [run] using ih b d
    | Text s => simpa [run] using ih b d

lemma run_shift : ∀ (l : List Event) (d e k : Nat),
    run d l = some e → run (d + k) l = some (e + k) := by
  intro l
  induction l with
  | nil => intro d e k h; simp [run] at h ⊢; omega
  | cons ev l ih =>
    intro d e k h
    cases ev with
    | Start t =>
      simp only [run] at h ⊢
      have := ih (d + 1) e k h
      simpa [Nat.add_right_comm] using this
    | End =>
      cases d with
      | zero => simp [run] at h
      | succ d2 =>
        simp only [run] at h ⊢
        have := ih d2 e k h
        have harith : d2 + 1 + k = (d2 + k) + 1 := by omega
        rw [harith]
        simpa [run] using this
    | Attr n v => simpa [run] using ih d e k (by simpa [run] using h)
    | Text s => simpa [run] using ih d e k (by simpa [run] using h)

lemma firstClose_eq : ∀ (l : List Event) (d : Nat) (m r : List Event),
    firstClose l d = some (m, r) → l = m ++ Event.End :: r := by
  intro l
  induction l with
  | nil => intro d m r h; simp [firstClose] at h
  | cons ev l ih =>
    intro d m r h
    cases ev with
    | Start t =>
      simp only [firstClose, Option.map_eq_some'] at h
      obtain ⟨⟨m2, r2⟩, hm2, hpr⟩ := h
      obtain ⟨hm, hr⟩ : Event.Start t :: m2 = m ∧ r2 = r := by
        simpa using hpr
      rw [← hm, ← hr]
      simpa using ih (d + 1) m2 r2 hm2
    | End =>
      cases d with
      | zero =>
        obtain ⟨hm, hr⟩ : ([] : List Event) = m ∧ l = r := by
          simpa [firstClose] using h
        rw [← hm, ← hr]; simp
      | succ d2 =>
        simp only [firstClose, Option.map_eq_some'] at h
        obtain ⟨⟨m2, r2⟩, hm2, hpr⟩ := h
        obtain ⟨hm, hr⟩ : Event.End :: m2 = m ∧ r2 = r := by
          simpa using hpr
        rw [← hm, ← hr]
        simpa using ih d2 m2 r2 hm2
    | Attr n v =>
      simp only [firstClose, Option.map_eq_some'] at h
      obtain ⟨⟨m2, r2⟩, hm2, hpr⟩ := h
      obtain ⟨hm, hr⟩ : Event.Attr n v :: m2 = m ∧ r2 = r := by
        simpa using hpr
      rw [← hm, ← hr]
      simpa using ih d m2 r2 hm2
    | Text s =>
      simp only [firstClose, Option.map_eq_some'] at h
      obtain ⟨⟨m2, r2⟩, hm2, hpr⟩ := h
      obtain ⟨hm, hr⟩ : Event.Text s :: m2 = m ∧ r2 = r := by
        simpa using hpr
      rw [← hm, ← hr]
      simpa using ih d m2 r2 hm2

lemma firstClose_isSome : ∀ (l : List Event) (d : Nat),
    run (d + 1) l = some 0 → ∃ m r, firstClose l d = some (m, r) := by
  intro l
  induction l with
  | nil => intro d h; simp [run] at h
  | cons ev l ih =>
    intro d h
    cases ev with
    | Start t =>
      obtain ⟨m, r, hm⟩ := ih (d + 1) (by simpa [run] using h)
      exact ⟨Event.Start t :: m, r, by simp [firstClose, hm]⟩
    | End =>
      cases d with
      | zero => exact ⟨[], l, rfl⟩
      | succ d2 =>
        obtain ⟨m, r, hm⟩ := ih d2 (by simpa [run] using h)
        exact ⟨Event.End :: m, r, by simp [firstClose, hm]⟩
    | Attr n v =>
      obtain ⟨m, r, hm⟩ := ih d (by simpa [run] using h)
      exact ⟨Event.Attr n v :: m, r, by simp [firstClose, hm]⟩
    | Text s =>
      obtain ⟨m, r, hm⟩ := ih d (by simpa [run] using h)
      exact ⟨Event.Text s :: m, r, by simp [firstClose, hm]⟩

lemma firstClose_run : ∀ (l : List Event) (d : Nat) (m r : List Event),
    firstClose l d = some (m, r) → run d m = some 0 := by
  intro l
  induction l with
  | nil => intro d m r h; simp [firstClose] at h
  | cons ev l ih =>
    intro d m r h
    cases ev with
    | Start t =>
      simp only [firstClose, Option.map_eq_some'] at h
      obtain ⟨⟨m2, r2⟩, hm2, hpr⟩ := h
      obtain ⟨hm, hr⟩ : Event.Start t :: m2 = m ∧ r2 = r := by simpa using hpr
      subst hm
      simpa [run] using ih (d + 1) m2 r2 hm2
    | End =>
      cases d with
      | zero =>
        obtain ⟨hm, hr⟩ : ([] : List Event) = m ∧ l = r := by
          simpa [firstClose] using h
        subst hm; simp [run]
      | succ d2 =>
        simp only [firstClose, Option.map_eq_some'] at h
        obtain ⟨⟨m2, r2⟩, hm2, hpr⟩ := h
        obtain ⟨hm, hr⟩ : Event.End :: m2 = m ∧ r2 = r := by simpa using hpr
        subst hm
        simpa [run] using ih d2 m2 r2 hm2
    | Attr n v =>
      simp only [firstClose, Option.map_eq_some'] at h
      obtain ⟨⟨m2, r2⟩, hm2, hpr⟩ := h
      obtain ⟨hm, hr⟩ : Event.Attr n v :: m2 = m ∧ r2 = r := by simpa using hpr
      subst hm
      simpa [run] using ih d m2 r2 hm2
    | Text s =>
      simp only [firstClose, Option.map_eq_some'] at h
      obtain ⟨⟨m2, r2⟩, hm2, hpr⟩ := h
      obtain ⟨hm, hr⟩ : Event.Text s :: m2 = m ∧ r2 = r := by simpa using hpr
      subst hm
      simpa [run] using ih d m2 r2 hm2

lemma bal_of_run_aux : ∀ (n : Nat) (l : List Event),
    l.length ≤ n → run 0 l = some 0 → Bal l := by
  intro n
  induction n with
  | zero =>
    intro l hl hr
    have : l = [] := List.length_eq_zero.mp (Nat.le_zero.mp hl)
    subst this; exact .nil
  | succ n ih =>
    intro l hl hr
    match l with
    | [] => exact .nil
    | .Text s :: l2 =>
      exact .text s l2 (ih l2 (by simpa using Nat.le_of_succ_le_succ hl)
        (by simpa [run] using hr))
    | .Attr nm v :: l2 =>
      exact .attr nm v l2 (ih l2 (by simpa using Nat.le_of_succ_le_succ hl)
        (by simpa [run] using hr))
    | .End :: l2 => simp [run] at hr
    | .Start t :: l2 =>
      have h1 : run 1 l2 = some 0 := by simpa [run] using hr
      obtain ⟨m, r, hm⟩ := firstClose_isSome l2 0 h1
      have heq : l2 = m ++ Event.End :: r := firstClose_eq l2 0 m r hm
      have hrunm : run 0 m = some 0 := firstClose_run l2 0 m r hm
      have hlen2 : l2.length ≤ n := by simpa using Nat.le_of_succ_le_succ hl
      have hlen3 : l2.length = m.length + (r.length + 1) := by
        rw [heq]; simp
      have hmlen : m.length ≤ n := by omega
      have hrlen : r.length ≤ n := by omega
      have hbm : Bal m := ih m hmlen hrunm
      have hrunr : run 0 r = some 0 := by
        have h2 : run 1 (m ++ Event.End :: r) = some 0 := heq ▸ h1
        rw [run_append] at h2
        have h3 : run 1 m = some 1 := by
          simpa using run_shift m 0 0 1 hrunm
        rw [h3] at h2
        simpa [run] using h2
      have hbr : Bal r := ih r hrlen hrunr
      rw [heq]
      exact .node t m r hbm hbr

lemma bal_of_run (l : List Event) (h : run 0 l = some 0) : Bal l :=
  bal_of_run_aux l.length l le_rfl h

lemma allAttrs_append : ∀ (a b : List Event),
    allAttrs (a ++ b) = allAttrs a ++ allAttrs b := by
  intro a
  induction a with
  | nil => intro b; simp [allAttrs]
  | cons ev a ih =>
    intro b
    cases ev <;> simp [allAttrs, ih]

lemma childAux_bal_append (m : List Event) (hm : Bal m) :
    ∀ (d : Nat) (t : List Event), childAux d (m ++ t) = childAux d m ++ childAux d t := by
  induction hm with
  | nil => intro d t; simp [childAux]
  | text s l hl ih => intro d t; simp [childAux, ih]
  | attr n v l hl ih =>
    intro d t
    by_cases hd : d = 1 <;> simp [childAux, hd, ih]
  | node tag inner l hi hl ihi ihl =>
    intro d t
    have hstep : (Event.Start tag :: inner ++ Event.End :: l) ++ t
        = Event.Start tag :: (inner ++ (Event.End :: (l ++ t))) := by simp
    rw [hstep]
    simp [childAux, ihi, ihl]

lemma topAttrs_bal (m : List Event) (hm : Bal m) :
    ∀ (d : Nat) (t : List Event),
      topAttrs d (m ++ t) = (if d = 0 then topAttrs 0 m else []) ++ topAttrs d t := by
  induction hm with
  | nil =>
    intro d t
    by_cases hd : d = 0 <;> simp [topAttrs, hd]
  | text s l hl ih =>
    intro d t
    simpa [topAttrs] using ih d t
  | attr n v l hl ih =>
    intro d t
    by_cases hd : d = 0
    · subst hd; simp [topAttrs, ih 0 t]
    · simp [topAttrs, hd, ih d t]
  | node tag inner l hi hl ihi ihl =>
    intro d t
    have hstep : (Event.Start tag :: inner ++ Event.End :: l) ++ t
        = Event.Start tag :: (inner ++ (Event.End :: (l ++ t))) := by simp
    rw [hstep]
    by_cases hd : d = 0
    · subst hd; simp [topAttrs, ihi, ihl]
    · simp [topAttrs, hd, ihi, ihl]

lemma scan_bal (m : List Event) (hm : Bal m) :
    ∀ (d : Nat), 1 ≤ d → ∀ (t : List Event),
      scanComponent d (m ++ t) =
        ⟨allAttrs m ++ (scanComponent d t).component_attributes,
         childAux d m ++ (scanComponent d t).children_events,
         (scanComponent d t).rest, (scanComponent d t).closed⟩ := by
  induction hm with
  | nil => intro d hd t; simp [allAttrs, childAux]
  | text s l hl ih =>
    intro d hd t
    have hd0 : ¬(d = 0) := by omega
    simp only [List.cons_append]
    simp [scanComponent, hd0, ih d hd t, allAttrs, childAux]
  | attr n v l hl ih =>
    intro d hd t
    by_cases hd1 : d = 1
    · subst hd1
      simp [scanComponent, ih 1 (by omega) t, allAttrs, childAux]
    · have hd0 : ¬(d = 0) := by omega
      simp [scanComponent, hd0, hd1, ih d hd t, allAttrs, childAux]
  | node tag inner l hi hl ihi ihl =>
    intro d hd t
    have hstep : (Event.Start tag :: inner ++ Event.End :: l) ++ t
        = Event.Start tag :: (inner ++ (Event.End :: (l ++ t))) := by simp
    rw [hstep]
    have h1 : scanComponent d (Event.Start tag :: (inner ++ (Event.End :: (l ++ t))))
        = ⟨(scanComponent (d + 1) (inner ++ (Event.End :: (l ++ t)))).component_attributes,
           Event.Start tag ::
             (scanComponent (d + 1) (inner ++ (Event.End :: (l ++ t)))).children_events,
           (scanComponent (d + 1) (inner ++ (Event.End :: (l ++ t)))).rest,
           (scanComponent (d + 1) (inner ++ (Event.End :: (l ++ t)))).closed⟩ := by
      simp [scanComponent]
    have h2 : scanComponent (d + 1) (Event.End :: (l ++ t))
        = ⟨(scanComponent d (l ++ t)).component_attributes,
           Event.End :: (scanComponent d (l ++ t)).children_events,
           (scanComponent d (l ++ t)).rest,
           (scanComponent d (l ++ t)).closed⟩ := by
      have hd0 : ¬(d = 0) := by omega
      simp [scanComponent, hd0]
    rw [h1, ihi (d + 1) (by omega) (Event.End :: (l ++ t)), h2, ihl d hd t]
    simp [allAttrs, allAttrs_append, childAux, childAux_bal_append inner hi,
      List.append_assoc]

lemma scan_rest_length : ∀ (l : List Event) (d : Nat),
    (scanComponent d l).rest.length ≤ l.length := by
  intro l
  induction l with
  | nil => intro d; simp [scanComponent]
  | cons ev rest ih =>
    intro d
    cases ev with
    | Start t =>
      have := ih (d + 1)
      simp only [scanComponent, Nat.succ_ne_zero, if_false, List.length_cons]
      omega
    | End =>
      by_cases hd : d - 1 = 0
      · simp [scanComponent, hd]
      · have := ih (d - 1)
        simp only [scanComponent, hd, if_false, List.length_cons]
        omega
    | Attr n v =>
      by_cases hd : d = 0
      · simp [scanComponent, hd]
      · have := ih d
        simp only [scanComponent, hd, if_false, List.length_cons]
        omega
    | Text s =>
      by_cases hd : d = 0
      · simp [scanComponent, hd]
      · have := ih d
        simp only [scanComponent, hd, if_false, List.length_cons]
        omega

lemma scan_unclosed_rest : ∀ (l : List Event) (d : Nat),
    (scanComponent d l).closed = false → (scanComponent d l).rest = [] := by
  intro l
  induction l with
  | nil => intro d _; simp [scanComponent]
  | cons ev rest ih =>
    intro d h
    cases ev with
    | Start t =>
      simp only [scanComponent, Nat.succ_ne_zero, if_false] at h ⊢
      exact ih (d + 1) h
    | End =>
      by_cases hd : d - 1 = 0
      · simp [scanComponent, hd] at h
      · simp only [scanComponent, hd, if_false] at h ⊢
        exact ih (d - 1) h
    | Attr n v =>
      by_cases hd : d = 0
      · simp [scanComponent, hd] at h
      · simp only [scanComponent, hd, if_false] at h ⊢
        exact ih d h
    | Text s =>
      by_cases hd : d = 0
      · simp [scanComponent, hd] at h
      · simp only [scanComponent, hd, if_false] at h ⊢
        exact ih d h

lemma go_nil (comps : List String) (fuel : Nat) (frag : List (List View))
    (attrs : List (List (String × String))) (elems : List String) :
    events_to_view_go comps fuel frag attrs elems [] =
      match frag with
      | [f] => some (.fragment f)
      | _ => none := by
  cases fuel <;> rfl

lemma go_adequate : ∀ (f1 f2 : Nat) (comps : List String) (frag : List (List View))
    (attrs : List (List (String × String))) (elems : List String) (events : List Event),
    events.length ≤ f1 → events.length ≤ f2 →
    events_to_view_go comps f1 frag attrs elems events =
      events_to_view_go comps f2 frag attrs elems events := by
  intro f1
  induction f1 with
  | zero =>
    intro f2 comps frag attrs elems events h1 h2
    have : events = [] := List.length_eq_zero.mp (Nat.le_zero.mp h1)
    subst this
    rw [go_nil, go_nil]
  | succ f1 ih =>
    intro f2 comps frag attrs elems events h1 h2
    cases events with
    | nil => rw [go_nil, go_nil]
    | cons ev rest =>
      cases f2 with
      | zero => simp at h2
      | succ f2 =>
        have hb1 : rest.length ≤ f1 := by
          simp only [List.length_cons] at h1; omega
        have hb2 : rest.length ≤ f2 := by
          simp only [List.length_cons] at h2; omega
        cases ev with
        | Start tag =>
          cases hc : comps.contains tag with
          | true =>
            cases frag with
            | nil => simp only [events_to_view_go, hc]
            | cons top frag2 =>
              simp only [events_to_view_go, hc]
              exact ih f2 comps _ attrs elems _
                (le_trans (scan_rest_length rest 1) hb1)
                (le_trans (scan_rest_length rest 1) hb2)
          | false =>
            simp only [events_to_view_go, hc]
            exact ih f2 comps _ _ _ rest hb1 hb2
        | End =>
          cases elems with
          | nil => simp [events_to_view_go]
          | cons tag elems2 =>
            cases frag with
            | nil => simp [events_to_view_go]
            | cons children frag1 =>
              cases frag1 with
              | nil => simp [events_to_view_go]
              | cons top frag2 =>
                cases attrs with
                | nil => simp [events_to_view_go]
                | cons cattrs attrs2 =>
                  simp only [events_to_view_go]
                  exact ih f2 comps _ attrs2 elems2 rest hb1 hb2
        | Attr n v =>
          cases attrs with
          | nil => simp [events_to_view_go]
          | cons top attrs2 =>
            simp only [events_to_view_go]
            exact ih f2 comps frag _ elems rest hb1 hb2
        | Text s =>
          cases frag with
          | nil => simp [events_to_view_go]
          | cons top frag2 =>
            simp only [events_to_view_go]
            exact ih f2 comps _ attrs elems rest hb1 hb2

lemma go_bal_append (events : List Event) (hbal : Bal events) (comps : List String) :
    ∃ vs : List View,
      ∀ (fuel : Nat) (t : List Event) (top : List View) (frag2 : List (List View))
        (atop : List (String × String)) (attrs2 : List (List (String × String)))
        (elems : List String),
        events.length + t.length ≤ fuel →
        events_to_view_go comps fuel (top :: frag2) (atop :: attrs2) elems (events ++ t) =
          events_to_view_go comps t.length ((top ++ vs) :: frag2)
            ((atop ++ topAttrs 0 events) :: attrs2) elems t := by
  induction hbal with
  | nil =>
    refine ⟨[], ?_⟩
    intro fuel t top frag2 atop attrs2 elems hfuel
    simp only [List.nil_append, List.append_nil, topAttrs]
    exact go_adequate fuel t.length comps (top :: frag2) (atop :: attrs2) elems t
      (by simpa using hfuel) le_rfl
  | text s l hl ih =>
    obtain ⟨vsl, hvsl⟩ := ih
    refine ⟨View.text s :: vsl, ?_⟩
    intro fuel t top frag2 atop attrs2 elems hfuel
    obtain ⟨f, rfl⟩ : ∃ f, fuel = f + 1 := by
      refine ⟨fuel - 1, ?_⟩
      simp only [List.length_cons] at hfuel
      omega
    have hstep : events_to_view_go comps (f + 1) (top :: frag2) (atop :: attrs2) elems
        ((Event.Text s :: l) ++ t)
        = events_to_view_go comps f ((top ++ [View.text s]) :: frag2) (atop :: attrs2)
            elems (l ++ t) := rfl
    rw [hstep, hvsl f t (top ++ [View.text s]) frag2 atop attrs2 elems
      (by simp only [List.length_cons] at hfuel; omega)]
    simp [topAttrs, List.append_assoc]
  | attr n v l hl ih =>
    obtain ⟨vsl, hvsl⟩ := ih
    refine ⟨vsl, ?_⟩
    intro fuel t top frag2 atop attrs2 elems hfuel
    obtain ⟨f, rfl⟩ : ∃ f, fuel = f + 1 := by
      refine ⟨fuel - 1, ?_⟩
      simp only [List.length_cons] at hfuel
      omega
    have hstep : events_to_view_go comps (f + 1) (top :: frag2) (atop :: attrs2) elems
        ((Event.Attr n v :: l) ++ t)
        = events_to_view_go comps f (top :: frag2) ((atop ++ [(n, v)]) :: attrs2)
            elems (l ++ t) := rfl
    rw [hstep, hvsl f t top frag2 (atop ++ [(n, v)]) attrs2 elems
      (by simp only [List.length_cons] at hfuel; omega)]
    simp [topAttrs, List.append_assoc]
  | node tag inner l hi hl ihi ihl =>
    obtain ⟨vsi, hvsi⟩ := ihi
    obtain ⟨vsl, hvsl⟩ := ihl
    have hlen : (Event.Start tag :: inner ++ Event.End :: l).length
        = inner.length + l.length + 2 := by simp; omega
    have htopA : topAttrs 0 (Event.Start tag :: inner ++ Event.End :: l)
        = topAttrs 0 l := by
      simp [topAttrs, topAttrs_bal inner hi 1 (Event.End :: l)]
    cases hc : comps.contains tag with
    | true =>
      refine ⟨View.component tag (allAttrs inner) (childAux 1 inner) :: vsl, ?_⟩
      intro fuel t top frag2 atop attrs2 elems hfuel
      obtain ⟨f, rfl⟩ : ∃ f, fuel = f + 1 := by
        refine ⟨fuel - 1, ?_⟩
        rw [hlen] at hfuel
        omega
      have hstep1 : (Event.Start tag :: inner ++ Event.End :: l) ++ t
          = Event.Start tag :: (inner ++ (Event.End :: (l ++ t))) := by simp
      rw [hstep1]
      have hscan : scanComponent 1 (inner ++ (Event.End :: (l ++ t)))
          = ⟨allAttrs inner, childAux 1 inner, l ++ t, true⟩ := by
        rw [scan_bal inner hi 1 le_rfl (Event.End :: (l ++ t))]
        simp [scanComponent]
      have hstep2 : events_to_view_go comps (f + 1) (top :: frag2) (atop :: attrs2) elems
          (Event.Start tag :: (inner ++ (Event.End :: (l ++ t))))
          = events_to_view_go comps f
              ((top ++ [View.component tag (allAttrs inner) (childAux 1 inner)]) :: frag2)
              (atop :: attrs2) elems (l ++ t) := by
        simp only [events_to_view_go, hc, hscan]
      rw [hstep2, hvsl f t _ frag2 atop attrs2 elems
        (by rw [hlen] at hfuel; omega)]
      rw [htopA]
      simp [List.append_assoc]
    | false =>
      refine ⟨View.element tag (topAttrs 0 inner) vsi :: vsl, ?_⟩
      intro fuel t top frag2 atop attrs2 elems hfuel
      obtain ⟨f, rfl⟩ : ∃ f, fuel = f + 1 := by
        refine ⟨fuel - 1, ?_⟩
        rw [hlen] at hfuel
        omega
      have hstep1 : (Event.Start tag :: inner ++ Event.End :: l) ++ t
          = Event.Start tag :: (inner ++ (Event.End :: (l ++ t))) := by simp
      rw [hstep1]
      have hstep2 : events_to_view_go comps (f + 1) (top :: frag2) (atop :: attrs2) elems
          (Event.Start tag :: (inner ++ (Event.End :: (l ++ t))))
          = events_to_view_go comps f ([] :: top :: frag2) ([] :: atop :: attrs2)
              (tag :: elems) (inner ++ (Event.End :: (l ++ t))) := by
        simp only [events_to_view_go, hc]
      rw [hstep2, hvsi f (Event.End :: (l ++ t)) [] (top :: frag2) [] (atop :: attrs2)
        (tag :: elems) (by rw [hlen] at hfuel; simp; omega)]
      have hstep3 : events_to_view_go comps (Event.End :: (l ++ t)).length
          (([] ++ vsi) :: top :: frag2) (([] ++ topAttrs 0 inner) :: atop :: attrs2)
          (tag :: elems) (Event.End :: (l ++ t))
          = events_to_view_go comps (l ++ t).length
              ((top ++ [View.element tag (topAttrs 0 inner) vsi]) :: frag2)
              (atop :: attrs2) elems (l ++ t) := by
        simp only [List.nil_append, List.length_cons, events_to_view_go]
      rw [hstep3, hvsl (l ++ t).length t _ frag2 atop attrs2 elems (by simp)]
      rw [htopA]
      simp [List.append_assoc]

lemma fda_subset : ∀ (l seen : List String) (x : String),
    x ∈ firstDedupAux seen l → x ∈ l := by
  intro l
  induction l with
  | nil => intro seen x h; simp [firstDedupAux] at h
  | cons y ys ih =>
    intro seen x h
    by_cases hy : y ∈ seen
    · simp only [firstDedupAux, if_pos hy] at h
      exact List.mem_cons_of_mem y (ih seen x h)
    · simp only [firstDedupAux, if_neg hy] at h
      rcases List.mem_cons.mp h with h1 | h2
      · exact h1 ▸ List.mem_cons_self y ys
      · exact List.mem_cons_of_mem y (ih (y :: seen) x h2)

lemma mem_fda : ∀ (l seen : List String) (x : String),
    x ∈ l → x ∉ seen → x ∈ firstDedupAux seen l := by
  intro l
  induction l with
  | nil => intro seen x h; simp at h
  | cons y ys ih =>
    intro seen x h hx
    by_cases hy : y ∈ seen
    · simp only [firstDedupAux, if_pos hy]
      rcases List.mem_cons.mp h with h1 | h2
      · exact absurd (h1 ▸ hy) hx
      · exact ih seen x h2 hx
    · simp only [firstDedupAux, if_neg hy]
      rcases List.mem_cons.mp h with h1 | h2
      · exact h1 ▸ List.mem_cons_self y _
      · by_cases hxy : x = y
        · exact hxy ▸ List.mem_cons_self y _
        · refine List.mem_cons_of_mem y (ih (y :: seen) x h2 ?_)
          simp [hxy, hx]

lemma fda_append_mem : ∀ (l seen : List String) (name : String),
    name ∈ l ∨ name ∈ seen →
    firstDedupAux seen (l ++ [name]) = firstDedupAux seen l := by
  intro l
  induction l with
  | nil =>
    intro seen name h
    have hs : name ∈ seen := by simpa using h
    simp [firstDedupAux, hs]
  | cons y ys ih =>
    intro seen name h
    by_cases hy : y ∈ seen
    · simp only [List.cons_append, firstDedupAux, if_pos hy]
      refine ih seen name ?_
      rcases h with h1 | h2
      · rcases List.mem_cons.mp h1 with h3 | h4
        · exact Or.inr (h3 ▸ hy)
        · exact Or.inl h4
      · exact Or.inr h2
    · simp only [List.cons_append, firstDedupAux, if_neg hy]
      congr 1
      refine ih (y :: seen) name ?_
      rcases h with h1 | h2
      · rcases List.mem_cons.mp h1 with h3 | h4
        · exact Or.inr (h3 ▸ List.mem_cons_self y seen)
        · exact Or.inl h4
      · exact Or.inr (List.mem_cons_of_mem y h2)

lemma fda_append_not_mem : ∀ (l seen : List String) (name : String),
    name ∉ l → name ∉ seen →
    firstDedupAux seen (l ++ [name]) = firstDedupAux seen l ++ [name] := by
  intro l
  induction l with
  | nil =>
    intro seen name _ hs
    simp [firstDedupAux, hs]
  | cons y ys ih =>
    intro seen name hl hs
    have hname : name ≠ y ∧ name ∉ ys := by
      constructor
      · intro h; exact hl (h ▸ List.mem_cons_self y ys)
      · intro h; exact hl (List.mem_cons_of_mem y h)
    by_cases hy : y ∈ seen
    · simp only [List.cons_append, firstDedupAux, if_pos hy]
      exact ih seen name hname.2 hs
    · simp only [List.cons_append, firstDedupAux, if_neg hy]
      have : name ∉ y :: seen := by
        simp [hname.1, hs]
      simp [ih (y :: seen) name hname.2 this]

lemma fda_prefix : ∀ (l1 : List String) (seen l2 : List String),
    ∃ c, firstDedupAux seen (l1 ++ l2) = firstDedupAux seen l1 ++ c := by
  intro l1
  induction l1 with
  | nil => intro seen l2; exact ⟨firstDedupAux seen l2, by simp [firstDedupAux]⟩
  | cons y ys ih =>
    intro seen l2
    by_cases hy : y ∈ seen
    · obtain ⟨c, hc⟩ := ih seen l2
      exact ⟨c, by simp [firstDedupAux, hy, hc]⟩
    · obtain ⟨c, hc⟩ := ih (y :: seen) l2
      exact ⟨c, by simp [firstDedupAux, hy, hc]⟩

lemma idx_append : ∀ (a b : List String) (x : String),
    x ∈ a → idxOfS x (a ++ b) = idxOfS x a := by
  intro a
  induction a with
  | nil => intro b x h; simp at h
  | cons y ys ih =>
    intro b x h
    by_cases hy : y = x
    · simp [idxOfS, hy]
    · have hx : x ∈ ys := by
        rcases List.mem_cons.mp h with h1 | h2
        · exact absurd h1.symm hy
        · exact h2
      simp [idxOfS, hy, ih b x hx]

lemma idx_last : ∀ (a : List String) (x : String),
    x ∉ a → idxOfS x (a ++ [x]) = a.length := by
  intro a
  induction a with
  | nil => intro x _; simp [idxOfS]
  | cons y ys ih =>
    intro x hx
    have hy : ¬(y = x) := by
      intro h; exact hx (h ▸ List.mem_cons_self y ys)
    have hx2 : x ∉ ys := fun h => hx (List.mem_cons_of_mem y h)
    simp [idxOfS, hy, ih x hx2]

lemma idx_stable (p q : List String) (x : String) (hx : x ∈ p) :
    idxOfS x (firstDedup (p ++ q)) = idxOfS x (firstDedup p) := by
  obtain ⟨c, hc⟩ := fda_prefix p [] q
  unfold firstDedup
  rw [hc]
  exact idx_append _ c x (mem_fda p [] x hx (by simp))

lemma runNumbers_spec : ∀ (occs : List (Bool × String)) (numbers : List (String × Nat))
    (processed : List String),
    numbers.length = (firstDedup processed).length →
    (∀ x, lookupA numbers x =
      if x ∈ processed then some (idxOfS x (firstDedup processed) + 1) else none) →
    runNumbers numbers occs =
      occs.map
        (fun o => idxOfS o.2 (firstDedup (processed ++ occs.map (fun p => p.2))) + 1) := by
  intro occs
  induction occs with
  | nil => intro numbers processed hlen hlook; simp [runNumbers]
  | cons occ rest ih =>
    intro numbers processed hlen hlook
    obtain ⟨k, name⟩ := occ
    by_cases hm : name ∈ processed
    · have hl : lookupA numbers name
          = some (idxOfS name (firstDedup processed) + 1) := by
        rw [hlook]; simp [hm]
      have hfo : footnoteOrdinal numbers name
          = (numbers, idxOfS name (firstDedup processed) + 1) := by
        simp [footnoteOrdinal, hl]
      have hfd : firstDedup (processed ++ [name]) = firstDedup processed :=
        fda_append_mem processed [] name (Or.inl hm)
      have hstep : runNumbers numbers ((k, name) :: rest)
          = (idxOfS name (firstDedup processed) + 1) :: runNumbers numbers rest := by
        simp [runNumbers, hfo]
      have hrec := ih numbers (processed ++ [name])
        (by rw [hfd]; exact hlen)
        (by
          intro x
          rw [hlook x]
          by_cases hx : x ∈ processed
          · have hx2 : x ∈ processed ++ [name] := by simp [hx]
            simp [hx, hx2, hfd]
          · have hxn : ¬(x = name) := by
              intro h; exact hx (h ▸ hm)
            have hx2 : ¬(x ∈ processed ++ [name]) := by
              simp [hx, hxn]
            simp [hx, hx2])
      have hEq : processed ++ [name] ++ rest.map (fun p => p.2)
          = processed ++ name :: rest.map (fun p => p.2) := by simp
      rw [hEq] at hrec
      rw [hstep, hrec]
      simp only [List.map_cons]
      rw [idx_stable processed (name :: rest.map (fun p => p.2)) name hm]
    · have hl : lookupA numbers name = none := by
        rw [hlook]; simp [hm]
      have hfo : footnoteOrdinal numbers name
          = ((name, numbers.length + 1) :: numbers, numbers.length + 1) := by
        simp [footnoteOrdinal, hl]
      have hnfd : name ∉ firstDedup processed :=
        fun hmem => hm (fda_subset processed [] name hmem)
      have hfd : firstDedup (processed ++ [name])
          = firstDedup processed ++ [name] :=
        fda_append_not_mem processed [] name hm (by simp)
      have hidx : idxOfS name (firstDedup (processed ++ [name]))
          = (firstDedup processed).length := by
        rw [hfd]; exact idx_last _ _ hnfd
      have hstep : runNumbers numbers ((k, name) :: rest)
          = (numbers.length + 1)
            :: runNumbers ((name, numbers.length + 1) :: numbers) rest := by
        simp [runNumbers, hfo]
      have hrec := ih ((name, numbers.length + 1) :: numbers) (processed ++ [name])
        (by simp [hfd, hlen])
        (by
          intro x
          by_cases hxn : name = x
          · subst hxn
            have hx2 : name ∈ processed ++ [name] := by simp
            simp [lookupA, hx2, hidx, hlen]
          · have hlk : lookupA ((name, numbers.length + 1) :: numbers) x
                = lookupA numbers x := by
              simp [lookupA, hxn]
            rw [hlk, hlook x]
            by_cases hx : x ∈ processed
            · have hx2 : x ∈ processed ++ [name] := by simp [hx]
              have : idxOfS x (firstDedup (processed ++ [name]))
                  = idxOfS x (firstDedup processed) := by
                rw [hfd]
                exact idx_append _ [name] x (mem_fda processed [] x hx (by simp))
              simp [hx, hx2, this]
            · have hx2 : ¬(x ∈ processed ++ [name]) := by
                simp [hx]
                intro h
                exact absurd h.symm hxn
              simp [hx, hx2])
      have hEq : processed ++ [name] ++ rest.map (fun p => p.2)
          = processed ++ name :: rest.map (fun p => p.2) := by simp
      rw [hEq] at hrec
      rw [hstep, hrec]
      simp only [List.map_cons]
      have h1 : idxOfS name
            (firstDedup (processed ++ name :: rest.map (fun p => p.2)))
          = numbers.length := by
        have h2 := idx_stable (processed ++ [name]) (rest.map (fun p => p.2)) name (by simp)
        have h3 : (processed ++ [name]) ++ rest.map (fun p => p.2)
            = processed ++ name :: rest.map (fun p => p.2) := by simp
        rw [h3] at h2
        rw [h2, hidx, ← hlen]
      rw [h1]

lemma splitOnceL_of_isPrefix (pat : List Char) :
    ∀ (l : List Char), pat.isPrefixOf l = true →
      splitOnceL pat l = some ([], l.drop pat.length) := by
  intro l h
  cases l with
  | nil => simp [splitOnceL, h]
  | cons c rest => simp [splitOnceL, h]

lemma splitOnceL_nil_fst (pat : List Char) (hpat : pat ≠ []) :
    ∀ (l r : List Char), splitOnceL pat l = some ([], r) →
      pat.isPrefixOf l = true := by
  intro l
  induction l with
  | nil =>
    intro r h
    cases pat with
    | nil => exact absurd rfl hpat
    | cons p ps => simp [splitOnceL, List.isPrefixOf] at h
  | cons c rest ih =>
    intro r h
    by_cases hp : pat.isPrefixOf (c :: rest)
    · exact hp
    · exfalso
      simp only [splitOnceL, hp, Bool.false_eq_true, if_false,
        Option.map_eq_some'] at h
      obtain ⟨⟨a, b⟩, _, hab⟩ := h
      simp at hab

lemma lookupA_insertA_self {α : Type} :
    ∀ (m : List (String × α)) (k : String) (v : α),
      lookupA (insertA m k v) k = some v := by
  intro m
  induction m with
  | nil => intro k v; simp [insertA, lookupA]
  | cons kw rest ih =>
    intro k v
    obtain ⟨k2, w⟩ := kw
    by_cases h : k2 = k
    · simp [insertA, h, lookupA]
    · simp [insertA, h, lookupA, ih k v]

lemma lookupA_insertA_ne {α : Type} :
    ∀ (m : List (String × α)) (k : String) (v : α) (k2 : String), k2 ≠ k →
      lookupA (insertA m k v) k2 = lookupA m k2 := by
  intro m
  induction m with
  | nil =>
    intro k v k2 hne
    have : ¬(k = k2) := fun h => hne h.symm
    simp [insertA, lookupA, this]
  | cons kw rest ih =>
    intro k v k2 hne
    obtain ⟨k3, w⟩ := kw
    by_cases h : k3 = k
    · subst h
      have : ¬(k3 = k2) := fun h => hne h.symm
      simp [insertA, lookupA, this]
    · by_cases h2 : k3 = k2
      · simp [insertA, h, lookupA, h2, hne]
      · simp [insertA, h, lookupA, h2, ih k v k2 hne]

/-- C1: the claim asserts that for `"# My heading"` the event sequence
includes `Attr("id","my-heading")`, produced by a slugger. The translation
of the Markdown tokenizer's output for that input
(`Start(Heading(H1,None,[])), Text("My heading"), End(Heading(..))`)
contains no `Attr` at all: `start_tag`'s `Heading` arm only passes through
an explicitly supplied heading id, and no slug table exists anywhere in
`parse_md`. This counterexample evaluates the parser at that exact input. -/
theorem c1_heading_slug_counterexample :
    parse_md (fun _ => []) [.Start (.Heading .h1 none []), .Text "My heading",
        .End (.Heading .h1 none [])]
      = [.Start "h1", .Text "My heading", .End] ∧
    Event.Attr "id" "my-heading" ∉
      parse_md (fun _ => []) [.Start (.Heading .h1 none []), .Text "My heading",
        .End (.Heading .h1 none [])] := by
  refine ⟨rfl, ?_⟩
  decide

/-- C1 (amended): for a heading with no explicit id or classes — such as
the tokenization of `"# My heading"` — the parser emits exactly
`Start(hN), Text(text), End`; no `id` attribute is synthesized and no
slugification happens. -/
theorem c1_heading_events_amended (tok : String → List XmlTok)
    (lv : HeadingLevel) (txt : String) :
    parse_md tok [.Start (.Heading lv none []), .Text txt,
        .End (.Heading lv none [])]
      = [.Start (headingTag lv), .Text txt, .End] := rfl

/-- C2: the component lookahead copies every `Attr` event of the scanned
sub-stream into `component_attributes` regardless of depth, so a
descendant's attributes leak onto the component invocation. Here the
registered component `C` carries no attribute of its own, yet its
renderer receives the nested `div`'s `class="inner"` (which is also,
correctly, part of the child events). -/
theorem c2_descendant_attr_leak :
    events_to_view ["C"]
        [.Start "C", .Start "div", .Attr "class" "inner", .End, .End]
      = some (.fragment [.component "C" [("class", "inner")]
          [.Start "div", .Attr "class" "inner", .End]]) := rfl

/-- C3: `parse_html` synthesizes no missing `End` events. For the token
stream of the input `"<div>"` (one start tag, never closed) the output is
the unbalanced `[Start "div"]`, which then trips the reconstructor's
imbalance panic (`none`). A stray close rejected by the reader arrives as
an error token and is dropped (parsing does not abort), but nothing
rebalances unclosed tags. -/
theorem c3_unclosed_tag_unbalanced :
    parse_html [.Start "div" []] = [.Start "div"] ∧
    run 0 (parse_html [.Start "div" []]) ≠ some 0 ∧
    events_to_view [] (parse_html [.Start "div" []]) = none ∧
    parse_html [.Err "stray close"] = [] := by
  refine ⟨rfl, by decide, rfl, rfl⟩

/-- C4: for every event sequence whose `Start`/`End` events form a
well-formed bracket sequence (the depth scan `run` ends at 0 with no
stray close), `events_to_view` reaches none of its failure branches and
finishes with exactly the root fragment, whose accumulated children are
the returned view — for any component registry. -/
theorem c4_balanced_reconstruction (comps : List String) (events : List Event)
    (h : run 0 events = some 0) :
    ∃ vs, events_to_view comps events = some (View.fragment vs) := by
  have hbal : Bal events := bal_of_run events h
  obtain ⟨vs, hvs⟩ := go_bal_append events hbal comps
  refine ⟨vs, ?_⟩
  have h2 := hvs events.length [] [] [] [] [] []
    (by show events.length + 0 ≤ events.length; omega)
  rw [List.append_nil] at h2
  rw [go_nil] at h2
  simpa [events_to_view] using h2

/-- C4 witness: a concrete balanced sequence (the `"<div id=\"test\">A
div!</div>"` example) reconstructs to a single root fragment. -/
theorem c4_balanced_reconstruction_witness :
    run 0 [Event.Start "div", .Attr "id" "test", .Text "A div!", .End] = some 0 ∧
    ∃ vs, events_to_view ["C"]
        [Event.Start "div", .Attr "id" "test", .Text "A div!", .End]
      = some (View.fragment vs) :=
  ⟨rfl, c4_balanced_reconstruction ["C"]
    [Event.Start "div", .Attr "id" "test", .Text "A div!", .End] rfl⟩

/-- C5: `parse` partitions its input as claimed. If the trimmed input
begins with `---` but the remainder holds no second `---`, the call fails
with `MissingFrontMatterEndDelimiter` and returns nothing else; if the
trimmed input does not begin with `---`, the call succeeds with no front
matter and the whole trimmed input handed to the Markdown body parser. -/
theorem c5_front_matter_partition {T : Type} (yaml : String → Except String T)
    (parseBody : String → List Event) (input : String) :
    (beginsWith (trimString input) "---" = true →
      splitOnce (String.mk ((trimString input).data.drop 3)) "---" = none →
      parse yaml parseBody input = .error .MissingFrontMatterEndDelimiter) ∧
    (beginsWith (trimString input) "---" = false →
      parse yaml parseBody input = .ok (none, parseBody (trimString input))) := by
  constructor
  · intro h1 h2
    have hsp : splitOnce (trimString input) "---"
        = some ("", String.mk ((trimString input).data.drop 3)) := by
      unfold splitOnce
      rw [splitOnceL_of_isPrefix _ _ h1]
      rfl
    have hsp2 : splitOnce (String.mk ((trimString input).data.drop 3)) "---"
        = none := h2
    simp [parse, hsp, hsp2]
  · intro h
    cases hsp : splitOnce (trimString input) "---" with
    | none => simp [parse, hsp]
    | some pr =>
      obtain ⟨pre, rest⟩ := pr
      have hpre : ¬(pre = "") := by
        intro hp
        subst hp
        unfold splitOnce at hsp
        rw [Option.map_eq_some'] at hsp
        obtain ⟨⟨a, b⟩, hab, hfab⟩ := hsp
        have ha : a = [] := by
          have := congrArg String.data (congrArg Prod.fst hfab)
          simpa using this
        subst ha
        have := splitOnceL_nil_fst "---".data (by decide) _ _ hab
        unfold beginsWith at h
        rw [this] at h
        exact Bool.noConfusion h
      simp [parse, hsp, hpre]

/-- C5 witness: `"---abc"` (opening delimiter, no closing one) fails with
the missing-delimiter error; `"  hi there "` (no opening delimiter)
succeeds with no front matter and the trimmed input as body. -/
theorem c5_front_matter_partition_witness :
    (beginsWith (trimString "---abc") "---" = true ∧
      splitOnce (String.mk ((trimString "---abc").data.drop 3)) "---" = none ∧
      parse (fun _ => Except.ok (0 : Nat)) (fun _ => []) "---abc"
        = .error .MissingFrontMatterEndDelimiter) ∧
    (beginsWith (trimString "  hi there ") "---" = false ∧
      parse (fun _ => Except.ok (0 : Nat)) (fun s => [Event.Text s]) "  hi there "
        = .ok (none, [Event.Text (trimString "  hi there ")])) :=
  ⟨⟨rfl, rfl,
    (c5_front_matter_partition (fun _ => Except.ok (0 : Nat)) (fun _ => []) "---abc").1
      rfl rfl⟩,
   ⟨rfl,
    (c5_front_matter_partition (fun _ => Except.ok (0 : Nat))
      (fun s => [Event.Text s]) "  hi there ").2 rfl⟩⟩

/-- C6: footnote references and definitions share one occurrence map per
parse: running the common numbering step (`footnoteOrdinal`, used verbatim
at both program sites) over any document-ordered list of labelled
occurrences (the `Bool` marks definition vs reference) assigns each
occurrence `1 +` the index of its label in the first-appearance
deduplication of all labels — so the n-th distinct label gets ordinal n
and every later occurrence of the same label (of either kind) reuses it. -/
theorem c6_footnote_ordinals (occs : List (Bool × String)) :
    runNumbers [] occs
      = occs.map
          (fun o => idxOfS o.2 (firstDedup (occs.map (fun p => p.2))) + 1) := by
  have h := runNumbers_spec occs [] []
    (by simp [firstDedup, firstDedupAux]) (by intro x; simp [lookupA])
  simpa using h

/-- C7: `ComponentMap::with` keeps only the latest registration for a
name: after registering `f` then `g` under `n`, lookup at `n` yields the
type-erased form of `g`, and lookup under any other name is unaffected. -/
theorem c7_registry_last_wins {V P1 P2 : Type} (m : ComponentMapM V)
    (n n2 : String) (fm1 : FromMdImpl P1) (f : P1 → V)
    (fm2 : FromMdImpl P2) (g : P2 → V) (hne : n2 ≠ n) :
    lookupA ((m.withComp n fm1 f).withComp n fm2 g).map n
        = some (into_type_erased_component fm2 g) ∧
    lookupA ((m.withComp n fm1 f).withComp n fm2 g).map n2 = lookupA m.map n2 := by
  constructor
  · exact lookupA_insertA_self _ n (into_type_erased_component fm2 g)
  · rw [ComponentMapM.withComp, ComponentMapM.withComp]
    rw [lookupA_insertA_ne _ n _ n2 hne, lookupA_insertA_ne _ n _ n2 hne]

/-- C7 witness: concrete double registration under `"a"`, checked at
`"a"` and at the unrelated `"b"`. -/
theorem c7_registry_last_wins_witness :
    ("b" : String) ≠ "a" ∧
    (lookupA (((⟨[]⟩ : ComponentMapM Nat).withComp "a" unitFromMd
          (fun _ => 0)).withComp "a" unitFromMd (fun _ => 1)).map "a"
        = some (into_type_erased_component unitFromMd (fun _ => 1)) ∧
      lookupA (((⟨[]⟩ : ComponentMapM Nat).withComp "a" unitFromMd
          (fun _ => 0)).withComp "a" unitFromMd (fun _ => 1)).map "b"
        = lookupA (⟨[]⟩ : ComponentMapM Nat).map "b") :=
  ⟨by decide,
   c7_registry_last_wins (⟨[]⟩ : ComponentMapM Nat) "a" "b" unitFromMd
     (fun _ => 0) unitFromMd (fun _ => 1) (by decide)⟩

/-- C8: the claim (and the `FromMd` trait contract plus the recovery code
in `into_type_erased_component`) say an unknown or unparsable attribute is
skipped with a warning and the component still renders. The `set_prop`
generated by the derive macro in from_md.rs instead panics (`none` here)
both on an unknown prop name and on a value-parse failure; the
`Except`-returning implementation the trait documents is recovered from
per-attribute exactly as claimed. -/
theorem c8_derived_set_prop_panics :
    counterSetPropDerived ⟨0, []⟩ "unknownprop" "1" = none ∧
    counterSetPropDerived ⟨0, []⟩ "initial" "oops" = none ∧
    into_type_erased_component counterFromMd id
        ([("unknownprop", "1"), ("initial", "5")], [])
      = (⟨5, []⟩ : CounterProps) :=
  ⟨rfl, rfl, rfl⟩

/-- C9: the claim says an `Attr` with no open frame fails as an error. It
does not: `attr_stack` starts with one (root) entry, so a document-root
`Attr` is appended there and silently discarded — reconstruction
succeeds. -/
theorem c9_root_attr_counterexample :
    events_to_view [] [.Attr "a" "b"] = some (.fragment []) ∧
    events_to_view [] [.Attr "a" "b"] ≠ none := by
  refine ⟨rfl, ?_⟩
  intro h
  rw [show events_to_view [] [.Attr "a" "b"] = some (.fragment []) from rfl] at h
  exact Option.noConfusion h

/-- C9 (amended): an `Attr` at document-root level is accepted, absorbed
into the pre-seeded root attribute frame, and discarded: the result is the
empty root fragment, not an error. The "cannot set attributes without an
element" branch fires only on an empty attribute stack, which the root
entry prevents. -/
theorem c9_root_attr_amended (comps : List String) (n v : String) :
    events_to_view comps [.Attr n v] = some (.fragment []) := rfl

/-- C10: when the event stream ends during a registered component's
lookahead scan before depth returns to 0 (`closed = false`, the branch
where the source logs the "tags are not balanced" warning),
`events_to_view` does not panic: it still invokes the renderer with the
attributes and child events collected up to the end of the stream. -/
theorem c10_unclosed_component_invoked (comps : List String) (tag : String)
    (rest : List Event) (h1 : comps.contains tag = true)
    (h2 : (scanComponent 1 rest).closed = false) :
    events_to_view comps (.Start tag :: rest)
      = some (.fragment [View.component tag
          (scanComponent 1 rest).component_attributes
          (scanComponent 1 rest).children_events]) := by
  have hrest := scan_unclosed_rest rest 1 h2
  show events_to_view_go comps (Event.Start tag :: rest).length [[]] [[]] []
    (Event.Start tag :: rest) = _
  have hstep : events_to_view_go comps (rest.length + 1) [[]] [[]] []
      (Event.Start tag :: rest)
      = events_to_view_go comps rest.length
          (([] ++ [View.component tag (scanComponent 1 rest).component_attributes
              (scanComponent 1 rest).children_events]) :: []) [[]] []
          (scanComponent 1 rest).rest := by
    simp only [events_to_view_go, h1]
  simp only [List.length_cons]
  rw [hstep, hrest, go_nil]
  rfl

/-- C10 witness: a registered component opened and never closed, with one
own attribute and one dangling child `Start`. -/
theorem c10_unclosed_component_invoked_witness :
    (["C"].contains "C" = true) ∧
    ((scanComponent 1 [.Attr "a" "1", .Start "div"]).closed = false) ∧
    events_to_view ["C"] [.Start "C", .Attr "a" "1", .Start "div"]
      = some (.fragment [.component "C" [("a", "1")] [.Start "div"]]) :=
  ⟨rfl, rfl, by
    rw [c10_unclosed_component_invoked ["C"] "C" [.Attr "a" "1", .Start "div"]
      rfl rfl]
    rfl⟩

end Mdsycx
